import Mathlib

set_option maxRecDepth 8000
set_option linter.unreachableTactic false
set_option linter.unnecessarySeqFocus false
set_option linter.unusedTactic false

/-- State of the ring buffer `HorridRing<T>` from `src/lib.rs`.  The raw
allocation `inner: *mut T` is modelled as a total function from slot index to
element; at construction it holds arbitrary (uninitialised) contents.  The
`u8` wrap counters are modelled as naturals kept below 256 by explicit
`% 256` wrapping (Rust `u8::wrapping_add(1)`), and the `usize` indices as
naturals. -/
structure HorridRing (α : Type u) where
  read : Nat
  write : Nat
  write_wrap : Nat
  read_wrap : Nat
  inner : Nat → α
  capacity : Nat

variable {α : Type u}

/-- Embedding of `HorridRing::with_capacity`: allocates storage (here: the
arbitrary initial memory contents `mem`) and zeroes the four cursor fields.
`Layout::from_size_align` succeeds for any `capacity * size_of::<T>()` that
fits, in particular for capacity 0, so construction itself never checks for a
positive capacity. -/
def with_capacity (capacity : Nat) (mem : Nat → α) : HorridRing α :=
  { read := 0, write := 0, write_wrap := 0, read_wrap := 0, inner := mem, capacity := capacity }

/-- Embedding of `HorridRing::push`: `ptr::write` at the current write index,
advance `write` modulo `capacity`, and bump the wrapping `u8` write epoch
exactly when the advance landed on zero. -/
def push (r : HorridRing α) (val : α) : HorridRing α :=
  { r with
    inner := fun i => if i = r.write then val else r.inner i
    write := (r.write + 1) % r.capacity
    write_wrap :=
      if (r.write + 1) % r.capacity = 0 then (r.write_wrap + 1) % 256 else r.write_wrap }

/-- `HorridRing::push` with the Rust division-by-zero panic made explicit:
`(self.write + 1) % self.capacity` panics when `capacity = 0` (`none`). -/
def pushChecked (r : HorridRing α) (val : α) : Option (HorridRing α) :=
  if r.capacity = 0 then none else some (push r val)

/-- Embedding of `HorridRing::clear`: zero the four cursor fields, leaving the
storage contents untouched. -/
def clear (r : HorridRing α) : HorridRing α :=
  { r with write := 0, read := 0, write_wrap := 0, read_wrap := 0 }

/-- Embedding of `Iterator::next` for `HorridRing`.  The source computes the
popped value in one of two branches (catch-up jump `self.read = self.write`
first, or a plain read at `self.read`) and then runs a shared
advance-and-wrap tail on `self.read`; here that tail is inlined into both
branches. -/
def next (r : HorridRing α) : Option α × HorridRing α :=
  if r.read_wrap = r.write_wrap ∧ r.read = r.write then (none, r)
  else if r.read_wrap < r.write_wrap ∧ r.read < r.write then
    (some (r.inner r.write),
      { r with
        read := (r.write + 1) % r.capacity
        read_wrap :=
          if (r.write + 1) % r.capacity = 0 then (r.read_wrap + 1) % 256 else r.read_wrap })
  else
    (some (r.inner r.read),
      { r with
        read := (r.read + 1) % r.capacity
        read_wrap :=
          if (r.read + 1) % r.capacity = 0 then (r.read_wrap + 1) % 256 else r.read_wrap })

/-- `Iterator::next` with the division-by-zero panic made explicit: the
emptiness test comes first in the source, so the `% self.capacity` is only
reached on a structurally non-empty buffer. -/
def nextChecked (r : HorridRing α) : Option (Option α × HorridRing α) :=
  if r.read_wrap = r.write_wrap ∧ r.read = r.write then some (none, r)
  else if r.capacity = 0 then none
  else some (next r)

/-- Fuelled embedding of `Iterator::collect::<Vec<_>>()` on a `HorridRing`:
call `next` repeatedly, gathering the popped values until `next` returns the
no-value sentinel.  The Rust loop is unbounded; `collect_sat` below shows
that on well-formed states the loop always stops within `256 * capacity`
calls, so the fuelled version with that much fuel coincides with it. -/
def collect : Nat → HorridRing α → List α × HorridRing α
  | 0, r => ([], r)
  | fuel + 1, r =>
    match next r with
    | (none, r2) => ([], r2)
    | (some v, r2) => ((v :: (collect fuel r2).1), (collect fuel r2).2)

/-- Embedding of `HorridRing::drain`: collect the whole iterator, then
`clear`.  Fuel `256 * capacity` strictly exceeds the reader-to-writer
distance of any well-formed state, so it is enough for the unbounded Rust
loop (see `collect_sat`). -/
def drain (r : HorridRing α) : List α × HorridRing α :=
  ((collect (256 * r.capacity) r).1, clear (collect (256 * r.capacity) r).2)

/-- The full pop stream of a state: everything `next` yields before it first
returns the sentinel (with fuel sufficient on any well-formed state). -/
def popList (r : HorridRing α) : List α :=
  (collect (256 * r.capacity) r).1

/-- Loop body of `Read::read` for `HorridRing<u8>`: `while let Some(val) =
self.next() { buf[index] = val; index += 1; if index == buf_len { break; } }`.
The out-of-bounds slice write `buf[index]` with `index ≥ buf.len()` is a Rust
panic, modelled as `none`.  The loop runs at most `buf.length + 1` times, so
that much fuel makes the embedding exact. -/
def read_loop : Nat → HorridRing α → List α → Nat → Option (List α × Nat × HorridRing α)
  | 0, _, _, _ => none
  | fuel + 1, r, buf, index =>
    match next r with
    | (none, r2) => some (buf, index, r2)
    | (some val, r2) =>
      if index < buf.length then
        if index + 1 = buf.length then some (buf.set index val, index + 1, r2)
        else read_loop fuel r2 (buf.set index val) (index + 1)
      else none

/-- Embedding of `Read::read` for `HorridRing<u8>`: run the loop from index 0
and return `Ok(index)` together with the written destination and the final
buffer state; `none` is the index-out-of-bounds panic. -/
def read (r : HorridRing α) (buf : List α) : Option (Nat × List α × HorridRing α) :=
  match read_loop (buf.length + 1) r buf 0 with
  | none => none
  | some (buf2, index, r2) => some (index, buf2, r2)

/-- `buf.iter().for_each(|b| self.push(*b))`: push every element in order. -/
def push_all (r : HorridRing α) (vs : List α) : HorridRing α :=
  vs.foldl push r

/-- Embedding of `Write::write` for `HorridRing<u8>`: push every byte of the
source and return `Ok(buf.len())`. -/
def write (r : HorridRing α) (buf : List α) : Nat × HorridRing α :=
  (buf.length, push_all r buf)

/-- `sliceF f a n` is the list `[f a, f (a+1), ..., f (a+n-1)]`: the contents
of `n` consecutive storage slots starting at `a`. -/
def sliceF (f : Nat → α) : Nat → Nat → List α
  | _, 0 => []
  | a, n + 1 => f a :: sliceF f (a + 1) n

/-- `overlay f a vs` is `f` overwritten with the elements of `vs` placed at
consecutive indices starting at `a` (mirroring a run of consecutive pushes). -/
def overlay : (Nat → α) → Nat → List α → Nat → α
  | f, _, [] => f
  | f, a, v :: vs => overlay (fun i => if i = a then v else f i) (a + 1) vs

/-- Modelled from the spec: the elements logically present in a state, oldest
first.  With equal epochs the unread run is `storage[read..write)`; when the
writer is exactly one epoch ahead it is the wrap-around run ending at `write`,
snapped forward to start at `write` (the oldest still-valid slot) when an
overwrite has demonstrably destroyed data the reader missed. -/
def logicalContent (r : HorridRing α) : List α :=
  if r.read_wrap = r.write_wrap then sliceF r.inner r.read (r.write - r.read)
  else if r.write ≤ r.read then
    sliceF r.inner r.read (r.capacity - r.read) ++ sliceF r.inner 0 r.write
  else
    sliceF r.inner r.write (r.capacity - r.write) ++ sliceF r.inner 0 r.write

/-- Well-formedness: the representation invariants that every Rust-reachable
state satisfies by construction (`usize` indices are maintained modulo the
positive capacity, the epochs are `u8` values). -/
def wf (r : HorridRing α) : Prop :=
  0 < r.capacity ∧ r.read < r.capacity ∧ r.write < r.capacity ∧
    r.read_wrap < 256 ∧ r.write_wrap < 256

instance (r : HorridRing α) : Decidable (wf r) := by unfold wf; exact inferInstance

/-- Absolute reader position on the `256 * capacity`-periodic cursor track. -/
def rpos (r : HorridRing α) : Nat := r.read + r.read_wrap * r.capacity

/-- Absolute writer position on the `256 * capacity`-periodic cursor track. -/
def wpos (r : HorridRing α) : Nat := r.write + r.write_wrap * r.capacity

/-- Cyclic distance from the reader to the writer; the loop variant of the
iterator: every successful `next` strictly decreases it. -/
def lag (r : HorridRing α) : Nat :=
  if rpos r ≤ wpos r then wpos r - rpos r else wpos r + 256 * r.capacity - rpos r

/-- All-zero memory used for the concrete sample states. -/
def mem0 : Nat → Nat := fun _ => 0

/-- Capacity 3, six pushes: the writer has lapped the reader twice. -/
def sampleSix : HorridRing Nat := push_all (with_capacity 3 mem0) [0, 1, 2, 3, 4, 5]

/-- Capacity 1, 256 pushes: the `u8` write epoch wraps back to 0. -/
def sampleLap : HorridRing Nat := push_all (with_capacity 1 mem0) (List.range 256)

/-- Capacity 2, one push: one unread element available. -/
def sampleOne : HorridRing Nat := push (with_capacity 2 mem0) 7

/-- Capacity 4, four pushes 1,2,3,4 (the bulk-read scenario of the spec). -/
def sampleFour : HorridRing Nat := push_all (with_capacity 4 mem0) [1, 2, 3, 4]

/-- A state in which the catch-up branch of `next` fires. -/
def sampleCatch : HorridRing Nat :=
  { read := 0, write := 1, write_wrap := 1, read_wrap := 0, inner := mem0, capacity := 2 }

/-- Equal epochs, two unread elements. -/
def sampleMid : HorridRing Nat :=
  { read := 0, write := 2, write_wrap := 0, read_wrap := 0, inner := fun i => i + 20, capacity := 3 }

-- ---------------------------------------------------------------------------
--     Theorems
-- ---------------------------------------------------------------------------

/-- C8: `clear` zeroes the read index, write index, read epoch and write
epoch, leaves the storage contents and capacity untouched, and after it the
next call to `next` returns the no-value sentinel, whatever the prior state. -/
theorem c8_clear_spec (r : HorridRing α) :
    clear r = { read := 0, write := 0, write_wrap := 0, read_wrap := 0,
                inner := r.inner, capacity := r.capacity } ∧
    (next (clear r)).1 = none :=
  ⟨rfl, rfl⟩

/-- C2 (amended): `next` returns the no-value sentinel exactly when the
structural emptiness invariant `read_index = write_index ∧ read_epoch =
write_epoch` holds.  (This coincides with logical emptiness only while the
writer has not lapped the reader twice nor wrapped the `u8` epoch; see the
counterexample.) -/
theorem c2_next_none_iff (r : HorridRing α) :
    (next r).1 = none ↔ (r.read_wrap = r.write_wrap ∧ r.read = r.write) := by
  constructor
  · intro hn
    by_contra hne
    unfold next at hn
    rw [if_neg hne] at hn
    by_cases hc : r.read_wrap < r.write_wrap ∧ r.read < r.write
    · rw [if_pos hc] at hn; exact Option.noConfusion hn
    · rw [if_neg hc] at hn; exact Option.noConfusion hn
  · intro he
    unfold next
    rw [if_pos he]

/-- C2 counterexample: 256 pushes into a fresh capacity-1 buffer wrap the
`u8` write epoch back to 0.  The last pushed value 255 sits unread in slot 0,
yet `next` returns the sentinel: an unread value is present but `next`
yields nothing, refuting the claim as stated. -/
theorem c2_present_but_none_cx :
    (next sampleLap).1 = none ∧ sampleLap.inner 0 = 255 ∧
    sampleLap.read = 0 ∧ sampleLap.write = 0 ∧
    sampleLap.read_wrap = 0 ∧ sampleLap.write_wrap = 0 ∧
    sampleLap.capacity = 1 := by
  decide

/-- C10 (amended): construction with capacity 0 succeeds; `push` on the
resulting buffer reaches its `% capacity` and panics (division by zero); but
`next` never reaches its modulo on such a buffer, because the emptiness test
comes first and a capacity-0 buffer is permanently structurally empty, so
`next` just returns the sentinel.  With positive capacity neither operation
can fail. -/
theorem c10_zero_capacity (mem : Nat → α) (v : α) :
    pushChecked (with_capacity 0 mem) v = none ∧
    nextChecked (with_capacity 0 mem) = some (none, with_capacity 0 mem) ∧
    (∀ (r : HorridRing α) (w : α), 0 < r.capacity →
      pushChecked r w = some (push r w) ∧ nextChecked r = some (next r)) := by
  refine ⟨rfl, rfl, ?_⟩
  intro r w hc
  constructor
  · unfold pushChecked
    rw [if_neg (by omega)]
  · unfold nextChecked
    by_cases he : r.read_wrap = r.write_wrap ∧ r.read = r.write
    · rw [if_pos he]
      unfold next
      rw [if_pos he]
    · rw [if_neg he, if_neg (by omega)]

/-- C10 witness: the amended statement applied at concrete inputs. -/
theorem c10_zero_capacity_w :
    pushChecked (with_capacity 0 mem0) 5 = none ∧
    (0 < sampleOne.capacity ∧ pushChecked sampleOne 9 = some (push sampleOne 9) ∧
      nextChecked sampleOne = some (next sampleOne)) :=
  ⟨(c10_zero_capacity mem0 5).1,
   by decide,
   ((c10_zero_capacity mem0 5).2.2 sampleOne 9 (by decide)).1,
   ((c10_zero_capacity mem0 5).2.2 sampleOne 9 (by decide)).2⟩

/-- C10 counterexample: the claim says calling `push` or `next` on a
capacity-0 buffer evaluates an index modulo zero; `next` does not — it
returns the sentinel without reaching the modulo — while `push` does. -/
theorem c10_next_no_div_cx :
    nextChecked (with_capacity 0 mem0) = some (none, with_capacity 0 mem0) ∧
    pushChecked (with_capacity 0 mem0) 5 = none :=
  ⟨rfl, rfl⟩

-- ---------------------------------------------------------------------------
--     Helper lemmas: slices, overlays, push runs
-- ---------------------------------------------------------------------------

theorem sliceF_length (f : Nat → α) : ∀ (n a : Nat), (sliceF f a n).length = n := by
  intro n
  induction n with
  | zero => intro a; rfl
  | succ n ih => intro a; simpa [sliceF] using ih (a + 1)

theorem sliceF_congr : ∀ (n a : Nat) (f g : Nat → α),
    (∀ i, a ≤ i → i < a + n → f i = g i) → sliceF f a n = sliceF g a n := by
  intro n
  induction n with
  | zero => intro a f g _; rfl
  | succ n ih =>
    intro a f g h
    simp only [sliceF]
    refine congrArg₂ _ (h a (by omega) (by omega)) (ih (a + 1) f g ?_)
    intro i h1 h2
    exact h i (by omega) (by omega)

theorem overlay_lt : ∀ (vs : List α) (f : Nat → α) (a i : Nat), i < a →
    overlay f a vs i = f i := by
  intro vs
  induction vs with
  | nil => intro f a i _; rfl
  | cons v vs ih =>
    intro f a i h
    simp only [overlay]
    rw [ih _ (a + 1) i (by omega), if_neg (by omega)]

theorem overlay_ge : ∀ (vs : List α) (f : Nat → α) (a i : Nat), a + vs.length ≤ i →
    overlay f a vs i = f i := by
  intro vs
  induction vs with
  | nil => intro f a i _; rfl
  | cons v vs ih =>
    intro f a i h
    simp only [overlay]
    rw [ih _ (a + 1) i (by simp at h ⊢; omega), if_neg (by simp at h; omega)]

theorem sliceF_overlay_suffix (vs : List α) : ∀ (f : Nat → α) (a j : Nat), j ≤ vs.length →
    sliceF (overlay f a vs) (a + j) (vs.length - j) = vs.drop j := by
  induction vs with
  | nil =>
    intro f a j h
    have hj : j = 0 := by simpa using h
    subst hj
    rfl
  | cons v vs ih =>
    intro f a j h
    match j with
    | 0 =>
      simp only [Nat.add_zero, List.length_cons, Nat.sub_zero, List.drop_zero, overlay]
      simp only [sliceF]
      refine congrArg₂ _ ?_ ?_
      · rw [overlay_lt vs _ (a + 1) a (by omega), if_pos rfl]
      · have := ih (fun i => if i = a then v else f i) (a + 1) 0 (by omega)
        simpa using this
    | j + 1 =>
      simp only [overlay, List.length_cons, Nat.succ_sub_succ, List.drop_succ_cons]
      have harith : a + (j + 1) = (a + 1) + j := by omega
      rw [harith]
      exact ih _ (a + 1) j (by simpa using h)

theorem drop_append_of_le (l2 : List α) : ∀ (l1 : List α) (k : Nat), k ≤ l1.length →
    (l1 ++ l2).drop k = l1.drop k ++ l2 := by
  intro l1
  induction l1 with
  | nil =>
    intro k h
    have hk : k = 0 := by simpa using h
    subst hk
    rfl
  | cons a l1 ih =>
    intro k h
    match k with
    | 0 => rfl
    | k + 1 =>
      simp only [List.cons_append, List.drop_succ_cons]
      exact ih k (by simpa using h)

theorem push_all_nil (r : HorridRing α) : push_all r [] = r := rfl

theorem push_all_cons (r : HorridRing α) (v : α) (vs : List α) :
    push_all r (v :: vs) = push_all (push r v) vs := rfl

theorem push_all_append (r : HorridRing α) (xs ys : List α) :
    push_all r (xs ++ ys) = push_all (push_all r xs) ys := by
  simp [push_all, List.foldl_append]

theorem push_no_wrap (r : HorridRing α) (v : α) (h : r.write + 1 < r.capacity) :
    push r v = { r with
                 write := r.write + 1
                 inner := fun i => if i = r.write then v else r.inner i } := by
  unfold push
  rw [Nat.mod_eq_of_lt h, if_neg (by omega)]

theorem push_wrap (r : HorridRing α) (v : α) (h : r.write + 1 = r.capacity) :
    push r v = { r with
                 write := 0
                 write_wrap := (r.write_wrap + 1) % 256
                 inner := fun i => if i = r.write then v else r.inner i } := by
  unfold push
  rw [h, Nat.mod_self, if_pos rfl]

theorem push_all_no_wrap : ∀ (vs : List α) (r : HorridRing α),
    r.write + vs.length < r.capacity →
    push_all r vs = { r with
                      write := r.write + vs.length
                      inner := overlay r.inner r.write vs } := by
  intro vs
  induction vs with
  | nil =>
    intro r _
    show r = _
    simp only [overlay, List.length_nil, Nat.add_zero]
  | cons v vs ih =>
    intro r h
    simp only [List.length_cons] at h
    rw [push_all_cons, push_no_wrap r v (by omega)]
    rw [ih _ (by simpa using (by omega : r.write + 1 + vs.length < r.capacity))]
    simp only [overlay, List.length_cons]
    congr 1
    omega

theorem push_all_wrap : ∀ (vs : List α) (r : HorridRing α),
    0 < vs.length → r.write + vs.length = r.capacity →
    push_all r vs = { r with
                      write := 0
                      write_wrap := (r.write_wrap + 1) % 256
                      inner := overlay r.inner r.write vs } := by
  intro vs
  induction vs with
  | nil => intro r h _; simp at h
  | cons v vs ih =>
    intro r _ h
    simp only [List.length_cons] at h
    rcases Nat.eq_zero_or_pos vs.length with h0 | hpos
    · have hveq : vs = [] := List.eq_nil_of_length_eq_zero h0
      subst hveq
      rw [push_all_cons, push_all_nil, push_wrap r v (by omega)]
      simp only [overlay]
    · rw [push_all_cons, push_no_wrap r v (by omega)]
      rw [ih _ (by simpa using hpos) (by simpa using (by omega : r.write + 1 + vs.length = r.capacity))]
      simp only [overlay]

-- ---------------------------------------------------------------------------
--     Helper lemmas: the branches of next, and collect runs
-- ---------------------------------------------------------------------------

theorem next_empty (r : HorridRing α) (h : r.read_wrap = r.write_wrap ∧ r.read = r.write) :
    next r = (none, r) := by
  unfold next
  rw [if_pos h]

theorem next_normal (r : HorridRing α)
    (hne : ¬(r.read_wrap = r.write_wrap ∧ r.read = r.write))
    (hnc : ¬(r.read_wrap < r.write_wrap ∧ r.read < r.write)) :
    next r = (some (r.inner r.read),
      { r with read := (r.read + 1) % r.capacity,
               read_wrap := if (r.read + 1) % r.capacity = 0 then (r.read_wrap + 1) % 256
                            else r.read_wrap }) := by
  unfold next
  rw [if_neg hne, if_neg hnc]

theorem next_catch (r : HorridRing α)
    (hne : ¬(r.read_wrap = r.write_wrap ∧ r.read = r.write))
    (hc : r.read_wrap < r.write_wrap ∧ r.read < r.write) :
    next r = (some (r.inner r.write),
      { r with read := (r.write + 1) % r.capacity,
               read_wrap := if (r.write + 1) % r.capacity = 0 then (r.read_wrap + 1) % 256
                            else r.read_wrap }) := by
  unfold next
  rw [if_neg hne, if_pos hc]

theorem next_normal_no_wrap (r : HorridRing α)
    (hne : ¬(r.read_wrap = r.write_wrap ∧ r.read = r.write))
    (hnc : ¬(r.read_wrap < r.write_wrap ∧ r.read < r.write))
    (hlt : r.read + 1 < r.capacity) :
    next r = (some (r.inner r.read),
      { r with read := r.read + 1, read_wrap := r.read_wrap }) := by
  rw [next_normal r hne hnc, Nat.mod_eq_of_lt hlt, if_neg (by omega)]

theorem next_normal_wrap (r : HorridRing α)
    (hne : ¬(r.read_wrap = r.write_wrap ∧ r.read = r.write))
    (hnc : ¬(r.read_wrap < r.write_wrap ∧ r.read < r.write))
    (heq : r.read + 1 = r.capacity) :
    next r = (some (r.inner r.read),
      { r with read := 0, read_wrap := (r.read_wrap + 1) % 256 }) := by
  rw [next_normal r hne hnc, heq, Nat.mod_self, if_pos rfl]

theorem next_catch_no_wrap (r : HorridRing α)
    (hne : ¬(r.read_wrap = r.write_wrap ∧ r.read = r.write))
    (hc : r.read_wrap < r.write_wrap ∧ r.read < r.write)
    (hlt : r.write + 1 < r.capacity) :
    next r = (some (r.inner r.write),
      { r with read := r.write + 1, read_wrap := r.read_wrap }) := by
  rw [next_catch r hne hc, Nat.mod_eq_of_lt hlt, if_neg (by omega)]

theorem next_catch_wrap (r : HorridRing α)
    (hne : ¬(r.read_wrap = r.write_wrap ∧ r.read = r.write))
    (hc : r.read_wrap < r.write_wrap ∧ r.read < r.write)
    (heq : r.write + 1 = r.capacity) :
    next r = (some (r.inner r.write),
      { r with read := 0, read_wrap := (r.read_wrap + 1) % 256 }) := by
  rw [next_catch r hne hc, heq, Nat.mod_self, if_pos rfl]

theorem collect_succ_none (fuel : Nat) (r r2 : HorridRing α) (h : next r = (none, r2)) :
    collect (fuel + 1) r = ([], r2) := by
  simp [collect, h]

theorem collect_succ_some (fuel : Nat) (r r2 : HorridRing α) (v : α)
    (h : next r = (some v, r2)) :
    collect (fuel + 1) r = (v :: (collect fuel r2).1, (collect fuel r2).2) := by
  simp [collect, h]

/-- Reading a run with equal epochs: `n` elements from `read` up to `write`,
each step a plain read with no index wrap. -/
theorem collect_same_epoch : ∀ (n fuel : Nat) (r : HorridRing α),
    r.read_wrap = r.write_wrap → r.read + n = r.write → r.write < r.capacity →
    n < fuel →
    collect fuel r = (sliceF r.inner r.read n, { r with read := r.write }) := by
  intro n
  induction n with
  | zero =>
    intro fuel r he hw hcap hf
    obtain ⟨f, rfl⟩ : ∃ f, fuel = f + 1 := ⟨fuel - 1, by omega⟩
    obtain ⟨rd, wr, ww, rw0, inn, cap⟩ := r
    simp only at he hw hcap
    have hrw : rd = wr := by omega
    subst hrw
    subst he
    rw [collect_succ_none f _ _ (next_empty _ ⟨rfl, rfl⟩)]
    rfl
  | succ n ih =>
    intro fuel r he hw hcap hf
    obtain ⟨f, rfl⟩ : ∃ f, fuel = f + 1 := ⟨fuel - 1, by omega⟩
    have hne : ¬(r.read_wrap = r.write_wrap ∧ r.read = r.write) := by
      rintro ⟨h1, h2⟩; omega
    have hnc : ¬(r.read_wrap < r.write_wrap ∧ r.read < r.write) := by
      rintro ⟨h1, h2⟩; omega
    rw [collect_succ_some f r _ _ (next_normal_no_wrap r hne hnc (by omega))]
    rw [ih f _ (by first | omega | (simp <;> omega) | simp)
      (by first | omega | (simp <;> omega) | simp)
      (by first | omega | (simp <;> omega) | simp)
      (by first | omega | (simp <;> omega) | simp)]
    rfl

/-- Reading a run with the writer one epoch ahead and the reader at or past
the write index: the reader walks to the end of the storage, wraps (aligning
the epochs), then finishes with `collect_same_epoch`. -/
theorem collect_epoch_gap : ∀ (m fuel : Nat) (r : HorridRing α),
    r.write_wrap = r.read_wrap + 1 → r.write_wrap < 256 →
    r.write ≤ r.read → r.read < r.capacity → r.read + m = r.capacity →
    r.write < r.capacity → m + r.write < fuel →
    collect fuel r = (sliceF r.inner r.read m ++ sliceF r.inner 0 r.write,
      { r with
        read := r.write
        read_wrap := r.write_wrap }) := by
  intro m
  induction m with
  | zero => intro fuel r h1 h2 h3 h4 h5 h6 h7; omega
  | succ m ih =>
    intro fuel r h1 h2 h3 h4 h5 h6 h7
    obtain ⟨f, rfl⟩ : ∃ f, fuel = f + 1 := ⟨fuel - 1, by omega⟩
    have hne : ¬(r.read_wrap = r.write_wrap ∧ r.read = r.write) := by
      rintro ⟨ha, _⟩; omega
    have hnc : ¬(r.read_wrap < r.write_wrap ∧ r.read < r.write) := by
      rintro ⟨_, hb⟩; omega
    rcases Nat.eq_zero_or_pos m with hm | hm
    · subst hm
      rw [collect_succ_some f r _ _ (next_normal_wrap r hne hnc (by omega))]
      have hmod : (r.read_wrap + 1) % 256 = r.write_wrap := by omega
      rw [hmod]
      rw [collect_same_epoch r.write f _ (by first | omega | (simp <;> omega) | simp)
        (by first | omega | (simp <;> omega) | simp)
        (by first | omega | (simp <;> omega) | simp)
        (by first | omega | (simp <;> omega) | simp)]
      rfl
    · rw [collect_succ_some f r _ _ (next_normal_no_wrap r hne hnc (by omega))]
      rw [ih f _ (by first | omega | (simp <;> omega) | simp)
        (by first | omega | (simp <;> omega) | simp)
        (by first | omega | (simp <;> omega) | simp)
        (by first | omega | (simp <;> omega) | simp)
        (by first | omega | (simp <;> omega) | simp)
        (by first | omega | (simp <;> omega) | simp)
        (by first | omega | (simp <;> omega) | simp)]
      rfl

/-- Reading a run in the catch-up configuration (writer one epoch ahead, raw
read index strictly below raw write index): the first `next` jumps the reader
to the write index, and the rest is the wrap-around run of
`collect_epoch_gap` / `collect_same_epoch`. -/
theorem collect_catch : ∀ (fuel : Nat) (r : HorridRing α),
    r.write_wrap = r.read_wrap + 1 → r.write_wrap < 256 →
    r.read < r.write → r.write < r.capacity → r.capacity < fuel →
    collect fuel r = (sliceF r.inner r.write (r.capacity - r.write) ++ sliceF r.inner 0 r.write,
      { r with
        read := r.write
        read_wrap := r.write_wrap }) := by
  intro fuel r h1 h2 h3 h4 hf
  obtain ⟨f, rfl⟩ : ∃ f, fuel = f + 1 := ⟨fuel - 1, by omega⟩
  have hne : ¬(r.read_wrap = r.write_wrap ∧ r.read = r.write) := by
    rintro ⟨ha, _⟩; omega
  have hc : r.read_wrap < r.write_wrap ∧ r.read < r.write := ⟨by omega, h3⟩
  rcases Nat.lt_or_ge (r.write + 1) r.capacity with hlt | hge
  · rw [collect_succ_some f r _ _ (next_catch_no_wrap r hne hc hlt)]
    rw [collect_epoch_gap (r.capacity - (r.write + 1)) f _
      (by first | omega | (simp <;> omega) | simp)
      (by first | omega | (simp <;> omega) | simp)
      (by first | omega | (simp <;> omega) | simp)
      (by first | omega | (simp <;> omega) | simp)
      (by first | omega | (simp <;> omega) | simp)
      (by first | omega | (simp <;> omega) | simp)
      (by first | omega | (simp <;> omega) | simp)]
    have hsz : r.capacity - r.write = (r.capacity - (r.write + 1)) + 1 := by omega
    rw [hsz]
    rfl
  · have heq : r.write + 1 = r.capacity := by omega
    rw [collect_succ_some f r _ _ (next_catch_wrap r hne hc heq)]
    have hmod : (r.read_wrap + 1) % 256 = r.write_wrap := by omega
    rw [hmod]
    rw [collect_same_epoch r.write f _ (by first | omega | (simp <;> omega) | simp)
      (by first | omega | (simp <;> omega) | simp)
      (by first | omega | (simp <;> omega) | simp)
      (by first | omega | (simp <;> omega) | simp)]
    have hsz : r.capacity - r.write = 1 := by omega
    rw [hsz]
    rfl

/-- C1 (amended): on every well-formed state in which the writer has not
lapped the reader by two or more epochs — i.e. either the epochs are equal
(with `read ≤ write`) or the write epoch is exactly one ahead — `drain`
returns exactly the logically present elements, oldest first, at most
`capacity` of them, and leaves the buffer cleared and empty.  (Once the
writer is two or more epochs ahead this fails; see the counterexample.) -/
theorem c1_drain_exact (r : HorridRing α) (h : wf r)
    (hcase : (r.read_wrap = r.write_wrap ∧ r.read ≤ r.write) ∨
      r.write_wrap = r.read_wrap + 1) :
    (drain r).1 = logicalContent r ∧ (logicalContent r).length ≤ r.capacity ∧
    (drain r).2 = clear r ∧ (next (drain r).2).1 = none := by
  obtain ⟨hcap, hr, hw, hrw, hww⟩ := h
  rcases hcase with ⟨he, hle⟩ | hgap
  · have hc := collect_same_epoch (r.write - r.read) (256 * r.capacity) r he (by omega) hw
      (by omega)
    have hlc : logicalContent r = sliceF r.inner r.read (r.write - r.read) := by
      unfold logicalContent
      rw [if_pos he]
    refine ⟨?_, ?_, ?_, ?_⟩
    · show (collect (256 * r.capacity) r).1 = _
      rw [hc, hlc]
    · rw [hlc, sliceF_length]
      omega
    · show clear (collect (256 * r.capacity) r).2 = clear r
      rw [hc]
      rfl
    · show (next (clear (collect (256 * r.capacity) r).2)).1 = none
      rw [hc]
      rfl
  · rcases Nat.lt_or_ge r.read r.write with hlt | hge
    · have hc := collect_catch (256 * r.capacity) r hgap (by omega) hlt hw (by omega)
      have hlc : logicalContent r =
          sliceF r.inner r.write (r.capacity - r.write) ++ sliceF r.inner 0 r.write := by
        unfold logicalContent
        rw [if_neg (by omega), if_neg (by omega)]
      refine ⟨?_, ?_, ?_, ?_⟩
      · show (collect (256 * r.capacity) r).1 = _
        rw [hc, hlc]
      · rw [hlc]
        simp only [List.length_append, sliceF_length]
        omega
      · show clear (collect (256 * r.capacity) r).2 = clear r
        rw [hc]
        rfl
      · show (next (clear (collect (256 * r.capacity) r).2)).1 = none
        rw [hc]
        rfl
    · have hc := collect_epoch_gap (r.capacity - r.read) (256 * r.capacity) r hgap (by omega)
        hge hr (by omega) hw (by omega)
      have hlc : logicalContent r =
          sliceF r.inner r.read (r.capacity - r.read) ++ sliceF r.inner 0 r.write := by
        unfold logicalContent
        rw [if_neg (by omega), if_pos hge]
      refine ⟨?_, ?_, ?_, ?_⟩
      · show (collect (256 * r.capacity) r).1 = _
        rw [hc, hlc]
      · rw [hlc]
        simp only [List.length_append, sliceF_length]
        omega
      · show clear (collect (256 * r.capacity) r).2 = clear r
        rw [hc]
        rfl
      · show (next (clear (collect (256 * r.capacity) r).2)).1 = none
        rw [hc]
        rfl

/-- C1 witness: the amended statement applied to a concrete well-formed
equal-epoch state with two unread elements. -/
theorem c1_drain_exact_w :
    wf sampleMid ∧
    ((sampleMid.read_wrap = sampleMid.write_wrap ∧ sampleMid.read ≤ sampleMid.write) ∨
      sampleMid.write_wrap = sampleMid.read_wrap + 1) ∧
    ((drain sampleMid).1 = logicalContent sampleMid ∧
      (logicalContent sampleMid).length ≤ sampleMid.capacity ∧
      (drain sampleMid).2 = clear sampleMid ∧ (next (drain sampleMid).2).1 = none) :=
  ⟨by decide, by decide, c1_drain_exact sampleMid (by decide) (by decide)⟩

/-- C1 counterexample: after six pushes into a fresh capacity-3 buffer (the
writer two epochs ahead of the reader), `drain` returns six elements — every
present value twice — exceeding the capacity and with duplicates, refuting
the claim over all reachable states. -/
theorem c1_drain_duplicates_cx :
    (drain sampleSix).1 = [3, 4, 5, 3, 4, 5] ∧ ¬(drain sampleSix).1.Nodup ∧
    sampleSix.capacity < (drain sampleSix).1.length := by
  decide

/-- C4: on a non-empty buffer, if the read epoch is strictly behind the write
epoch and the raw read index is strictly below the raw write index, `next`
first snaps the read cursor to the current write index, returns the element
stored there, and consumes exactly one element (the read cursor ends at
`write + 1` modulo capacity, with the epoch bump exactly on wrap); in every
other non-empty case it returns the element at the unmodified read index and
advances the cursor from there. -/
theorem c4_next_catch_up (r : HorridRing α)
    (hne : ¬(r.read_wrap = r.write_wrap ∧ r.read = r.write)) :
    (r.read_wrap < r.write_wrap ∧ r.read < r.write →
      next r = (some (r.inner r.write),
        { r with
          read := (r.write + 1) % r.capacity
          read_wrap := if (r.write + 1) % r.capacity = 0 then (r.read_wrap + 1) % 256
                       else r.read_wrap })) ∧
    (¬(r.read_wrap < r.write_wrap ∧ r.read < r.write) →
      next r = (some (r.inner r.read),
        { r with
          read := (r.read + 1) % r.capacity
          read_wrap := if (r.read + 1) % r.capacity = 0 then (r.read_wrap + 1) % 256
                       else r.read_wrap })) :=
  ⟨fun hc => next_catch r hne hc, fun hnc => next_normal r hne hnc⟩

/-- C4 witness: the catch-up branch at a concrete state (capacity 2, reader
one epoch behind with `read = 0 < 1 = write`). -/
theorem c4_next_catch_up_w :
    (¬(sampleCatch.read_wrap = sampleCatch.write_wrap ∧ sampleCatch.read = sampleCatch.write)) ∧
    (sampleCatch.read_wrap < sampleCatch.write_wrap ∧ sampleCatch.read < sampleCatch.write) ∧
    next sampleCatch = (some (sampleCatch.inner sampleCatch.write),
      { sampleCatch with
        read := (sampleCatch.write + 1) % sampleCatch.capacity
        read_wrap := if (sampleCatch.write + 1) % sampleCatch.capacity = 0
                     then (sampleCatch.read_wrap + 1) % 256 else sampleCatch.read_wrap }) :=
  ⟨by decide, by decide, (c4_next_catch_up sampleCatch (by decide)).1 (by decide)⟩

/-- C6: `push` never fails on a buffer of positive capacity: it stores the
value at the current write index (touching no other slot), advances the
write index by one modulo capacity, bumps the wrapping write epoch exactly
when the advance wrapped past zero, and changes nothing else. -/
theorem c6_push_spec (r : HorridRing α) (v : α) (hc : 0 < r.capacity)
    (hw : r.write < r.capacity) :
    pushChecked r v = some (push r v) ∧
    (push r v).inner r.write = v ∧
    (∀ i, i ≠ r.write → (push r v).inner i = r.inner i) ∧
    (push r v).write = (r.write + 1) % r.capacity ∧
    ((push r v).write_wrap = (r.write_wrap + 1) % 256 ↔ r.write + 1 = r.capacity) ∧
    (r.write + 1 < r.capacity → (push r v).write_wrap = r.write_wrap) ∧
    (push r v).read = r.read ∧ (push r v).read_wrap = r.read_wrap ∧
    (push r v).capacity = r.capacity := by
  refine ⟨?_, ?_, ?_, rfl, ?_, ?_, rfl, rfl, rfl⟩
  · unfold pushChecked
    rw [if_neg (by omega)]
  · show (if r.write = r.write then v else r.inner r.write) = v
    rw [if_pos rfl]
  · intro i hi
    show (if i = r.write then v else r.inner i) = r.inner i
    rw [if_neg hi]
  · show (if (r.write + 1) % r.capacity = 0 then (r.write_wrap + 1) % 256 else r.write_wrap) =
      (r.write_wrap + 1) % 256 ↔ r.write + 1 = r.capacity
    constructor
    · intro hh
      by_contra hne
      rw [if_neg (by rw [Nat.mod_eq_of_lt (by omega)]; omega)] at hh
      omega
    · intro hh
      rw [if_pos (by rw [hh]; exact Nat.mod_self _)]
  · intro hlt
    show (if (r.write + 1) % r.capacity = 0 then (r.write_wrap + 1) % 256 else r.write_wrap) =
      r.write_wrap
    rw [if_neg (by rw [Nat.mod_eq_of_lt hlt]; omega)]

/-- C6 witness: hypotheses and the no-failure conjunct at a concrete state. -/
theorem c6_push_spec_w :
    0 < sampleOne.capacity ∧ sampleOne.write < sampleOne.capacity ∧
    pushChecked sampleOne 9 = some (push sampleOne 9) ∧
    (push sampleOne 9).write = (sampleOne.write + 1) % sampleOne.capacity :=
  ⟨by decide, by decide, (c6_push_spec sampleOne 9 (by decide) (by decide)).1,
    (c6_push_spec sampleOne 9 (by decide) (by decide)).2.2.2.1⟩

/-- C5: pushing `c + k` values (`0 < k < c`) into a fresh buffer of capacity
`c` and then draining yields exactly the last `c` values pushed, oldest of
the retained set first; the first `k` values are gone. -/
theorem c5_overflow_drain (c k : Nat) (vs : List α) (mem : Nat → α)
    (hk0 : 0 < k) (hkc : k < c) (hlen : vs.length = c + k) :
    (drain (push_all (with_capacity c mem) vs)).1 = vs.drop k := by
  have hxs : (vs.take c).length = c := by rw [List.length_take]; omega
  have hys : (vs.drop c).length = k := by rw [List.length_drop]; omega
  have h1 : push_all (with_capacity c mem) (vs.take c) =
      { read := 0, write := 0, write_wrap := 1, read_wrap := 0,
        inner := overlay mem 0 (vs.take c), capacity := c } := by
    rw [push_all_wrap (vs.take c) _ (by first | omega | (simp [with_capacity] <;> omega) | simp [with_capacity])
      (by first | omega | (simp [with_capacity] <;> omega) | simp [with_capacity])]
    simp [with_capacity]
  have h2 : push_all (with_capacity c mem) vs =
      { read := 0, write := k, write_wrap := 1, read_wrap := 0,
        inner := overlay (overlay mem 0 (vs.take c)) 0 (vs.drop c), capacity := c } := by
    conv_lhs => rw [← List.take_append_drop c vs]
    rw [push_all_append, h1]
    rw [push_all_no_wrap (vs.drop c) _ (by simp [hys]; omega)]
    simp [hys]
  rw [h2]
  show (collect (256 * c) _).1 = vs.drop k
  rw [collect_catch (256 * c) _ (by first | omega | (simp <;> omega) | simp | decide) (by first | omega | (simp <;> omega) | simp | decide) (by first | omega | (simp <;> omega) | simp | decide) (by first | omega | (simp <;> omega) | simp | decide)
    (by first | omega | (simp <;> omega) | simp | decide)]
  show sliceF (overlay (overlay mem 0 (vs.take c)) 0 (vs.drop c)) k (c - k) ++
    sliceF (overlay (overlay mem 0 (vs.take c)) 0 (vs.drop c)) 0 k = vs.drop k
  have hA : sliceF (overlay (overlay mem 0 (vs.take c)) 0 (vs.drop c)) k (c - k) =
      (vs.take c).drop k := by
    rw [sliceF_congr (c - k) k _ (overlay mem 0 (vs.take c))
      (fun i h1i h2i => overlay_ge (vs.drop c) _ 0 i (by omega))]
    have := sliceF_overlay_suffix (vs.take c) mem 0 k (by omega)
    rw [hxs] at this
    simpa using this
  have hB : sliceF (overlay (overlay mem 0 (vs.take c)) 0 (vs.drop c)) 0 k = vs.drop c := by
    have := sliceF_overlay_suffix (vs.drop c) (overlay mem 0 (vs.take c)) 0 0 (by omega)
    rw [hys] at this
    simpa using this
  rw [hA, hB]
  conv_rhs => rw [← List.take_append_drop c vs]
  rw [drop_append_of_le (vs.drop c) (vs.take c) k (by omega)]

/-- C5 witness: the spec scenario — capacity 2, push 10, 11, 12, drain yields
the last two values. -/
theorem c5_overflow_drain_w :
    0 < 1 ∧ 1 < 2 ∧ ([10, 11, 12] : List Nat).length = 2 + 1 ∧
    (drain (push_all (with_capacity 2 mem0) [10, 11, 12])).1 = [10, 11, 12].drop 1 :=
  ⟨by decide, by decide, by decide,
    c5_overflow_drain 2 1 [10, 11, 12] mem0 (by decide) (by decide) (by decide)⟩

/-- C7: a bulk `write` always reports accepting its whole input, and a bulk
`write` of at most `capacity` bytes into a fresh buffer followed by `drain`
returns exactly the written bytes in order. -/
theorem c7_write_drain_round_trip (c : Nat) (mem : Nat → α) (s : List α)
    (hc : 0 < c) (hlen : s.length ≤ c) :
    (write (with_capacity c mem) s).1 = s.length ∧
    (∀ (r : HorridRing α) (buf : List α), (write r buf).1 = buf.length) ∧
    (drain (write (with_capacity c mem) s).2).1 = s := by
  refine ⟨rfl, fun _ _ => rfl, ?_⟩
  show (drain (push_all (with_capacity c mem) s)).1 = s
  rcases Nat.lt_or_ge s.length c with hlt | hge
  · have h1 : push_all (with_capacity c mem) s =
        { read := 0, write := s.length, write_wrap := 0, read_wrap := 0,
          inner := overlay mem 0 s, capacity := c } := by
      rw [push_all_no_wrap s _ (by first | omega | (simp [with_capacity] <;> omega) | simp [with_capacity])]
      simp [with_capacity]
    rw [h1]
    show (collect (256 * c) _).1 = s
    rw [collect_same_epoch s.length (256 * c) _ (by first | omega | (simp <;> omega) | simp | decide) (by first | omega | (simp <;> omega) | simp | decide) (by first | omega | (simp <;> omega) | simp | decide)
      (by first | omega | (simp <;> omega) | simp | decide)]
    show sliceF (overlay mem 0 s) 0 s.length = s
    have := sliceF_overlay_suffix s mem 0 0 (by omega)
    simpa using this
  · have hEq : s.length = c := by omega
    have h1 : push_all (with_capacity c mem) s =
        { read := 0, write := 0, write_wrap := 1, read_wrap := 0,
          inner := overlay mem 0 s, capacity := c } := by
      rw [push_all_wrap s _ (by first | omega | (simp [with_capacity] <;> omega) | simp [with_capacity]) (by first | omega | (simp [with_capacity] <;> omega) | simp [with_capacity])]
      simp [with_capacity]
    rw [h1]
    show (collect (256 * c) _).1 = s
    rw [collect_epoch_gap c (256 * c) _ (by first | omega | (simp <;> omega) | simp | decide) (by first | omega | (simp <;> omega) | simp | decide) (by first | omega | (simp <;> omega) | simp | decide) (by first | omega | (simp <;> omega) | simp | decide)
      (by first | omega | (simp <;> omega) | simp | decide) (by first | omega | (simp <;> omega) | simp | decide) (by first | omega | (simp <;> omega) | simp | decide)]
    show sliceF (overlay mem 0 s) 0 c ++ sliceF (overlay mem 0 s) 0 0 = s
    have := sliceF_overlay_suffix s mem 0 0 (by omega)
    rw [hEq] at this
    simpa [sliceF] using this

/-- C7 witness: the spec scenario shape — write three bytes into a fresh
capacity-4 buffer and drain them back. -/
theorem c7_write_drain_round_trip_w :
    0 < 4 ∧ ([6, 7, 8] : List Nat).length ≤ 4 ∧
    (write (with_capacity 4 mem0) [6, 7, 8]).1 = ([6, 7, 8] : List Nat).length ∧
    (drain (write (with_capacity 4 mem0) [6, 7, 8]).2).1 = [6, 7, 8] :=
  ⟨by decide, by decide,
    (c7_write_drain_round_trip 4 mem0 [6, 7, 8] (by decide) (by decide)).1,
    (c7_write_drain_round_trip 4 mem0 [6, 7, 8] (by decide) (by decide)).2.2⟩

/-- Reader and writer positions agree exactly on the structurally empty
states (well-formedness makes the position encoding injective). -/
theorem pos_eq_iff (r : HorridRing α) (h : wf r) :
    rpos r = wpos r ↔ (r.read_wrap = r.write_wrap ∧ r.read = r.write) := by
  obtain ⟨hcap, hr, hw, hrw, hww⟩ := h
  constructor
  · intro hp
    unfold rpos wpos at hp
    have hmod : r.read = r.write := by
      have h1 : (r.read + r.read_wrap * r.capacity) % r.capacity = r.read := by
        rw [Nat.add_mul_mod_self_right, Nat.mod_eq_of_lt hr]
      have h2 : (r.write + r.write_wrap * r.capacity) % r.capacity = r.write := by
        rw [Nat.add_mul_mod_self_right, Nat.mod_eq_of_lt hw]
      rw [← h1, ← h2, hp]
    have hmul : r.read_wrap * r.capacity = r.write_wrap * r.capacity := by omega
    exact ⟨Nat.eq_of_mul_eq_mul_right hcap hmul, hmod⟩
  · rintro ⟨h1, h2⟩
    unfold rpos wpos
    rw [h1, h2]

/-- The reader position never reaches the period of the cursor track. -/
theorem rpos_lt (r : HorridRing α) (h : wf r) : rpos r < 256 * r.capacity := by
  obtain ⟨hcap, hr, hw, hrw, hww⟩ := h
  have hA : r.read_wrap * r.capacity ≤ 255 * r.capacity :=
    mul_le_mul_right' (by omega) _
  unfold rpos
  omega

/-- The loop variant is zero exactly on the structurally empty states. -/
theorem lag_eq_zero_iff (r : HorridRing α) (h : wf r) :
    lag r = 0 ↔ (r.read_wrap = r.write_wrap ∧ r.read = r.write) := by
  have hiff := pos_eq_iff r h
  have hlt := rpos_lt r h
  unfold lag
  split_ifs with hc
  · rw [← hiff]
    omega
  · rw [← hiff]
    omega

/-- The loop variant is bounded by the fuel `drain` uses. -/
theorem lag_lt (r : HorridRing α) (h : wf r) : lag r < 256 * r.capacity := by
  obtain ⟨hcap, hr, hw, hrw, hww⟩ := h
  have hA : r.read_wrap * r.capacity ≤ 255 * r.capacity :=
    mul_le_mul_right' (by omega) _
  have hB : r.write_wrap * r.capacity ≤ 255 * r.capacity :=
    mul_le_mul_right' (by omega) _
  unfold lag rpos wpos
  split_ifs <;> omega

/-- Every `next` on a non-empty well-formed state yields a value, preserves
well-formedness and the writer-side fields, and strictly decreases the loop
variant: the iterator always terminates. -/
theorem next_step (r : HorridRing α) (h : wf r)
    (hne : ¬(r.read_wrap = r.write_wrap ∧ r.read = r.write)) :
    ∃ v r2, next r = (some v, r2) ∧ wf r2 ∧ lag r2 < lag r ∧
      r2.write = r.write ∧ r2.write_wrap = r.write_wrap ∧
      r2.inner = r.inner ∧ r2.capacity = r.capacity := by
  obtain ⟨hcap, hr, hw, hrw, hww⟩ := h
  have hBle : r.write_wrap * r.capacity ≤ 255 * r.capacity :=
    mul_le_mul_right' (by omega) _
  have hAle : r.read_wrap * r.capacity ≤ 255 * r.capacity :=
    mul_le_mul_right' (by omega) _
  by_cases hcu : r.read_wrap < r.write_wrap ∧ r.read < r.write
  · have hAB : r.read_wrap * r.capacity + r.capacity ≤ r.write_wrap * r.capacity := by
      have h2 : (r.read_wrap + 1) * r.capacity ≤ r.write_wrap * r.capacity :=
        mul_le_mul_right' (by omega) _
      rw [Nat.succ_mul] at h2
      exact h2
    rcases Nat.lt_or_ge (r.write + 1) r.capacity with hlt1 | hge1
    · refine ⟨_, _, next_catch_no_wrap r hne hcu hlt1,
        ⟨hcap, show r.write + 1 < r.capacity from hlt1, hw, hrw, hww⟩,
        ?_, rfl, rfl, rfl, rfl⟩
      simp only [lag, rpos, wpos]
      split_ifs <;> omega
    · have heq1 : r.write + 1 = r.capacity := by omega
      have hmod : (r.read_wrap + 1) % 256 = r.read_wrap + 1 := Nat.mod_eq_of_lt (by omega)
      refine ⟨_, _, next_catch_wrap r hne hcu heq1,
        ⟨hcap, show (0 : Nat) < r.capacity from hcap, hw,
          show (r.read_wrap + 1) % 256 < 256 from Nat.mod_lt _ (by omega), hww⟩,
        ?_, rfl, rfl, rfl, rfl⟩
      simp only [lag, rpos, wpos]
      rw [hmod, Nat.succ_mul]
      split_ifs <;> omega
  · rcases Nat.lt_trichotomy r.read_wrap r.write_wrap with h3 | h3 | h3
    · have hwr : ¬ r.read < r.write := fun hh => hcu ⟨h3, hh⟩
      have hAB : r.read_wrap * r.capacity + r.capacity ≤ r.write_wrap * r.capacity := by
        have h2 : (r.read_wrap + 1) * r.capacity ≤ r.write_wrap * r.capacity :=
          mul_le_mul_right' (by omega) _
        rw [Nat.succ_mul] at h2
        exact h2
      rcases Nat.lt_or_ge (r.read + 1) r.capacity with hlt1 | hge1
      · refine ⟨_, _, next_normal_no_wrap r hne hcu hlt1,
          ⟨hcap, show r.read + 1 < r.capacity from hlt1, hw, hrw, hww⟩,
          ?_, rfl, rfl, rfl, rfl⟩
        simp only [lag, rpos, wpos]
        split_ifs <;> omega
      · have heq1 : r.read + 1 = r.capacity := by omega
        have hmod : (r.read_wrap + 1) % 256 = r.read_wrap + 1 := Nat.mod_eq_of_lt (by omega)
        refine ⟨_, _, next_normal_wrap r hne hcu heq1,
          ⟨hcap, show (0 : Nat) < r.capacity from hcap, hw,
            show (r.read_wrap + 1) % 256 < 256 from Nat.mod_lt _ (by omega), hww⟩,
          ?_, rfl, rfl, rfl, rfl⟩
        simp only [lag, rpos, wpos]
        rw [hmod, Nat.succ_mul]
        split_ifs <;> omega
    · have hneq : r.read ≠ r.write := fun hh => hne ⟨h3, hh⟩
      have hAB : r.read_wrap * r.capacity = r.write_wrap * r.capacity := by rw [h3]
      rcases Nat.lt_or_ge (r.read + 1) r.capacity with hlt1 | hge1
      · refine ⟨_, _, next_normal_no_wrap r hne hcu hlt1,
          ⟨hcap, show r.read + 1 < r.capacity from hlt1, hw, hrw, hww⟩,
          ?_, rfl, rfl, rfl, rfl⟩
        simp only [lag, rpos, wpos]
        split_ifs <;> omega
      · have heq1 : r.read + 1 = r.capacity := by omega
        rcases Nat.lt_or_ge r.read_wrap 255 with h255 | h255
        · have hmod : (r.read_wrap + 1) % 256 = r.read_wrap + 1 := Nat.mod_eq_of_lt (by omega)
          refine ⟨_, _, next_normal_wrap r hne hcu heq1,
            ⟨hcap, show (0 : Nat) < r.capacity from hcap, hw,
              show (r.read_wrap + 1) % 256 < 256 from Nat.mod_lt _ (by omega), hww⟩,
            ?_, rfl, rfl, rfl, rfl⟩
          simp only [lag, rpos, wpos]
          rw [hmod, Nat.succ_mul]
          split_ifs <;> omega
        · have h255e : r.read_wrap = 255 := by omega
          have hBeq : r.write_wrap * r.capacity = 255 * r.capacity := by
            rw [← h3, h255e]
          refine ⟨_, _, next_normal_wrap r hne hcu heq1,
            ⟨hcap, show (0 : Nat) < r.capacity from hcap, hw,
              show (r.read_wrap + 1) % 256 < 256 from Nat.mod_lt _ (by omega), hww⟩,
            ?_, rfl, rfl, rfl, rfl⟩
          simp only [lag, rpos, wpos]
          rw [h255e]
          rw [show ((255 : Nat) + 1) % 256 = 0 from rfl, Nat.zero_mul]
          split_ifs <;> omega
    · have hAB : r.write_wrap * r.capacity + r.capacity ≤ r.read_wrap * r.capacity := by
        have h2 : (r.write_wrap + 1) * r.capacity ≤ r.read_wrap * r.capacity :=
          mul_le_mul_right' (by omega) _
        rw [Nat.succ_mul] at h2
        exact h2
      rcases Nat.lt_or_ge (r.read + 1) r.capacity with hlt1 | hge1
      · refine ⟨_, _, next_normal_no_wrap r hne hcu hlt1,
          ⟨hcap, show r.read + 1 < r.capacity from hlt1, hw, hrw, hww⟩,
          ?_, rfl, rfl, rfl, rfl⟩
        simp only [lag, rpos, wpos]
        split_ifs <;> omega
      · have heq1 : r.read + 1 = r.capacity := by omega
        rcases Nat.lt_or_ge r.read_wrap 255 with h255 | h255
        · have hmod : (r.read_wrap + 1) % 256 = r.read_wrap + 1 := Nat.mod_eq_of_lt (by omega)
          refine ⟨_, _, next_normal_wrap r hne hcu heq1,
            ⟨hcap, show (0 : Nat) < r.capacity from hcap, hw,
              show (r.read_wrap + 1) % 256 < 256 from Nat.mod_lt _ (by omega), hww⟩,
            ?_, rfl, rfl, rfl, rfl⟩
          simp only [lag, rpos, wpos]
          rw [hmod, Nat.succ_mul]
          split_ifs <;> omega
        · have h255e : r.read_wrap = 255 := by omega
          have hABe : r.write_wrap * r.capacity + r.capacity ≤ 255 * r.capacity := by
            rw [← h255e]
            exact hAB
          refine ⟨_, _, next_normal_wrap r hne hcu heq1,
            ⟨hcap, show (0 : Nat) < r.capacity from hcap, hw,
              show (r.read_wrap + 1) % 256 < 256 from Nat.mod_lt _ (by omega), hww⟩,
            ?_, rfl, rfl, rfl, rfl⟩
          simp only [lag, rpos, wpos]
          rw [h255e]
          rw [show ((255 : Nat) + 1) % 256 = 0 from rfl, Nat.zero_mul]
          split_ifs <;> omega

/-- Saturation: on a well-formed state the iterator reaches the sentinel
within `lag r` pops, so any two fuels beyond the variant produce the same
pop stream — the fuelled `collect` agrees with the unbounded Rust loop. -/
theorem collect_sat : ∀ (d : Nat) (r : HorridRing α) (f1 f2 : Nat), wf r → lag r ≤ d →
    d < f1 → d < f2 → (collect f1 r).1 = (collect f2 r).1 := by
  intro d
  induction d using Nat.strong_induction_on with
  | _ d ih =>
    intro r f1 f2 hwf hd h1 h2
    obtain ⟨a, rfl⟩ : ∃ a, f1 = a + 1 := ⟨f1 - 1, by omega⟩
    obtain ⟨b, rfl⟩ : ∃ b, f2 = b + 1 := ⟨f2 - 1, by omega⟩
    by_cases he : r.read_wrap = r.write_wrap ∧ r.read = r.write
    · rw [collect_succ_none a r r (next_empty r he), collect_succ_none b r r (next_empty r he)]
    · obtain ⟨v, r2, hnext, hwf2, hlag, _, _, _, _⟩ := next_step r hwf he
      have hpos : 0 < lag r := by
        rcases Nat.eq_zero_or_pos (lag r) with h0 | h0
        · exact absurd ((lag_eq_zero_iff r hwf).1 h0) he
        · exact h0
      rw [collect_succ_some a r r2 v hnext, collect_succ_some b r r2 v hnext]
      show v :: (collect a r2).1 = v :: (collect b r2).1
      rw [ih (lag r2) (by omega) r2 a b hwf2 (Nat.le_refl _) (by omega) (by omega)]

/-- Truncation: a smaller fuel yields a prefix of the pop stream. -/
theorem collect_take : ∀ (f1 f2 : Nat) (r : HorridRing α), f1 ≤ f2 →
    (collect f1 r).1 = ((collect f2 r).1).take f1 := by
  intro f1
  induction f1 with
  | zero => intro f2 r _; rfl
  | succ f1 ih =>
    intro f2 r h
    obtain ⟨b, rfl⟩ : ∃ b, f2 = b + 1 := ⟨f2 - 1, by omega⟩
    cases hnext : next r with
    | mk o r2 =>
      cases o with
      | none =>
        rw [collect_succ_none f1 r r2 hnext, collect_succ_none b r r2 hnext]
        rfl
      | some v =>
        rw [collect_succ_some f1 r r2 v hnext, collect_succ_some b r r2 v hnext]
        show v :: (collect f1 r2).1 = (v :: (collect b r2).1).take (f1 + 1)
        rw [List.take_succ_cons, ih b r2 (by omega)]

/-- A fuelled pop stream never exceeds its fuel in length. -/
theorem collect_length_le : ∀ (fuel : Nat) (r : HorridRing α),
    (collect fuel r).1.length ≤ fuel := by
  intro fuel
  induction fuel with
  | zero => intro r; exact Nat.le_refl 0
  | succ fuel ih =>
    intro r
    cases hnext : next r with
    | mk o r2 =>
      cases o with
      | none =>
        rw [collect_succ_none fuel r r2 hnext]
        simp
      | some v =>
        rw [collect_succ_some fuel r r2 v hnext]
        show ((v :: (collect fuel r2).1).length) ≤ fuel + 1
        simp only [List.length_cons]
        exact Nat.succ_le_succ (ih r2)

theorem take_of_length_le_aux : ∀ (l : List α) (n : Nat), l.length ≤ n → l.take n = l := by
  intro l
  induction l with
  | nil => intro n _; simp
  | cons a l ih =>
    intro n h
    obtain ⟨m, rfl⟩ : ∃ m, n = m + 1 := ⟨n - 1, by simp at h; omega⟩
    rw [List.take_succ_cons, ih m (by simpa using h)]

/-- Popping with any fuel gives a prefix of the full pop stream. -/
theorem popList_take (r : HorridRing α) (h : wf r) (n : Nat) :
    (collect n r).1 = (popList r).take n := by
  rcases le_or_lt n (256 * r.capacity) with hle | hgt
  · exact collect_take n (256 * r.capacity) r hle
  · have hlag := lag_lt r h
    have hsat := collect_sat (lag r) r n (256 * r.capacity) h (Nat.le_refl _) (by omega)
      (by omega)
    have hlen : (popList r).length ≤ 256 * r.capacity := collect_length_le _ r
    rw [show popList r = (collect (256 * r.capacity) r).1 from rfl] at hlen ⊢
    rw [hsat, take_of_length_le_aux _ n (by omega)]

theorem set_append_cons (v : α) : ∀ (done : List α) (z : α) (rest : List α),
    (done ++ z :: rest).set done.length v = done ++ v :: rest := by
  intro done
  induction done with
  | nil => intro z rest; rfl
  | cons d done ih =>
    intro z rest
    show d :: ((done ++ z :: rest).set done.length v) = d :: (done ++ v :: rest)
    rw [ih z rest]

/-- The `Read::read` loop writes exactly the pop stream truncated to the room
left in the destination, starting after the already-filled prefix `done`, and
leaves the tail of the destination untouched; the final buffer state is the
one the truncated pop run produces. -/
theorem read_loop_run : ∀ (rest : List α) (fuel : Nat) (r : HorridRing α) (done : List α),
    0 < rest.length → rest.length < fuel →
    read_loop fuel r (done ++ rest) done.length =
      some (done ++ (collect rest.length r).1 ++ rest.drop (collect rest.length r).1.length,
        done.length + (collect rest.length r).1.length, (collect rest.length r).2) := by
  intro rest
  induction rest with
  | nil => intro fuel r done h _; simp at h
  | cons z rest ih =>
    intro fuel r done h hf
    simp only [List.length_cons] at hf
    obtain ⟨f, rfl⟩ : ∃ f, fuel = f + 1 := ⟨fuel - 1, by omega⟩
    have hidx : done.length < (done ++ z :: rest).length := by
      simp
    cases hnext : next r with
    | mk o r2 =>
      cases o with
      | none =>
        rw [show (z :: rest).length = rest.length + 1 from rfl,
          collect_succ_none rest.length r r2 hnext]
        simp only [read_loop, hnext]
        simp
      | some v =>
        rw [show (z :: rest).length = rest.length + 1 from rfl,
          collect_succ_some rest.length r r2 v hnext]
        rcases Nat.eq_zero_or_pos rest.length with h0 | hpos
        · have hrest : rest = [] := List.eq_nil_of_length_eq_zero h0
          subst hrest
          simp only [read_loop, hnext]
          rw [if_pos hidx, if_pos (by simp)]
          rw [set_append_cons v done z []]
          simp [collect]
        · have hstep := ih f r2 (done ++ [v]) hpos (by omega)
          simp only [read_loop, hnext]
          rw [if_pos hidx, if_neg (by simp only [List.length_append, List.length_cons]; omega)]
          rw [set_append_cons v done z rest]
          simp only [List.append_assoc, List.cons_append, List.singleton_append,
            List.nil_append, List.length_append, List.length_singleton, List.length_nil,
            List.length_cons, Nat.zero_add, Nat.add_zero,
            List.drop_succ_cons] at hstep ⊢
          rw [hstep]
          refine congrArg some ?_
          refine congrArg₂ Prod.mk rfl (congrArg₂ Prod.mk ?_ rfl)
          omega

theorem read_run (r : HorridRing α) (buf : List α) (res : List α × Nat × HorridRing α)
    (h : read_loop (buf.length + 1) r buf 0 = some res) :
    read r buf = some (res.2.1, res.1, res.2.2) := by
  show (match read_loop (buf.length + 1) r buf 0 with
    | none => none
    | some (buf2, index, r2) => some (index, buf2, r2)) = some (res.2.1, res.1, res.2.2)
  rw [h]

/-- C3 (amended): on a well-formed state, a bulk read into a destination of
positive length `N` never fails: it returns `min N L`, where `L` is the
length of the pop stream (everything `next` yields before exhaustion),
copies exactly those bytes into the front of the destination in pop order,
and leaves the destination beyond that count untouched.  (For `N = 0` on a
non-empty buffer the source instead performs an out-of-bounds slice write —
see the counterexample.) -/
theorem c3_read_spec (r : HorridRing α) (buf : List α) (hwf : wf r)
    (hlen : 0 < buf.length) :
    ∃ rf, read r buf = some (min buf.length (popList r).length,
      (popList r).take buf.length ++ buf.drop (min buf.length (popList r).length), rf) := by
  have hrun := read_loop_run buf (buf.length + 1) r [] hlen (by omega)
  simp only [List.nil_append, List.length_nil, Nat.zero_add] at hrun
  have hread := read_run r buf _ hrun
  dsimp only at hread
  rw [popList_take r hwf buf.length, List.length_take] at hread
  exact ⟨(collect buf.length r).2, hread⟩

/-- C3 witness: the spec scenario — capacity 4 holding 1,2,3,4, bulk read
into a six-byte destination returns four bytes. -/
theorem c3_read_spec_w :
    wf sampleFour ∧ 0 < ([0, 0, 0, 0, 0, 0] : List Nat).length ∧
    ∃ rf, read sampleFour [0, 0, 0, 0, 0, 0] =
      some (min ([0, 0, 0, 0, 0, 0] : List Nat).length (popList sampleFour).length,
        (popList sampleFour).take ([0, 0, 0, 0, 0, 0] : List Nat).length ++
          ([0, 0, 0, 0, 0, 0] : List Nat).drop
            (min ([0, 0, 0, 0, 0, 0] : List Nat).length (popList sampleFour).length), rf) :=
  ⟨by decide, by decide, c3_read_spec sampleFour [0, 0, 0, 0, 0, 0] (by decide) (by decide)⟩

/-- C3 counterexample: a bulk read with a zero-length destination on a
non-empty buffer fails — the loop pops a value and then performs the
out-of-bounds write `buf[0]` (the `none` of the panic model) — refuting
"never fails ... including N = 0". -/
theorem c3_read_empty_dest_cx : read sampleOne ([] : List Nat) = none := by
  rfl

theorem next_idx (r : HorridRing α) (hcap : 0 < r.capacity) (hr : r.read < r.capacity)
    (hw : r.write < r.capacity) :
    (next r).2.read < r.capacity ∧ (next r).2.write < r.capacity ∧
    (next r).2.capacity = r.capacity := by
  unfold next
  split_ifs <;> exact ⟨by first | exact hr | exact Nat.mod_lt _ hcap, hw, rfl⟩

theorem read_loop_idx : ∀ (fuel : Nat) (r : HorridRing α) (buf : List α) (index : Nat)
    (res : List α × Nat × HorridRing α),
    0 < r.capacity → r.read < r.capacity → r.write < r.capacity →
    read_loop fuel r buf index = some res →
    res.2.2.read < r.capacity ∧ res.2.2.write < r.capacity ∧
    res.2.2.capacity = r.capacity := by
  intro fuel
  induction fuel with
  | zero => intro r buf index res _ _ _ h; exact absurd h (by simp [read_loop])
  | succ fuel ih =>
    intro r buf index res hcap hr hw h
    obtain ⟨hr2, hw2, hc2⟩ := next_idx r hcap hr hw
    cases hnext : next r with
    | mk o r2 =>
      rw [hnext] at hr2 hw2 hc2
      dsimp only at hr2 hw2 hc2
      cases o with
      | none =>
        have hstep : read_loop (fuel + 1) r buf index = some (buf, index, r2) := by
          simp only [read_loop, hnext]
        rw [hstep] at h
        obtain rfl : (buf, index, r2) = res := by simpa using h
        exact ⟨hr2, hw2, hc2⟩
      | some v =>
        by_cases hi : index < buf.length
        · by_cases he : index + 1 = buf.length
          · have hstep : read_loop (fuel + 1) r buf index =
                some (buf.set index v, index + 1, r2) := by
              simp only [read_loop, hnext]
              rw [if_pos hi, if_pos he]
            rw [hstep] at h
            obtain rfl : (buf.set index v, index + 1, r2) = res := by simpa using h
            exact ⟨hr2, hw2, hc2⟩
          · have hstep : read_loop (fuel + 1) r buf index =
                read_loop fuel r2 (buf.set index v) (index + 1) := by
              simp only [read_loop, hnext]
              rw [if_pos hi, if_neg he]
            rw [hstep] at h
            have h4 := ih r2 (buf.set index v) (index + 1) res (by omega) (by omega)
              (by omega) h
            omega
        · have hstep : read_loop (fuel + 1) r buf index = none := by
            simp only [read_loop, hnext]
            rw [if_neg hi]
          rw [hstep] at h
          exact absurd h (by simp)

theorem push_all_idx : ∀ (vs : List α) (r : HorridRing α), 0 < r.capacity →
    r.read < r.capacity → r.write < r.capacity →
    (push_all r vs).read < r.capacity ∧ (push_all r vs).write < r.capacity ∧
    (push_all r vs).capacity = r.capacity := by
  intro vs
  induction vs with
  | nil => intro r hcap hr hw; exact ⟨hr, hw, rfl⟩
  | cons v vs ih =>
    intro r hcap hr hw
    exact ih (push r v) hcap hr (Nat.mod_lt _ hcap)

/-- C9: with positive capacity, the read and write indices stay in
`[0, capacity)`: they do so on a fresh buffer, and every operation — push,
next (including its catch-up jump), clear, drain, bulk read and bulk
write — preserves the bounds. -/
theorem c9_index_bounds (r : HorridRing α) (hcap : 0 < r.capacity)
    (hr : r.read < r.capacity) (hw : r.write < r.capacity) :
    (∀ (c : Nat) (mem : Nat → α), 0 < c →
      (with_capacity c mem).read < c ∧ (with_capacity c mem).write < c) ∧
    (∀ v : α, (push r v).read < r.capacity ∧ (push r v).write < r.capacity) ∧
    ((next r).2.read < r.capacity ∧ (next r).2.write < r.capacity) ∧
    ((clear r).read < r.capacity ∧ (clear r).write < r.capacity) ∧
    ((drain r).2.read < r.capacity ∧ (drain r).2.write < r.capacity) ∧
    (∀ (buf : List α) (res : Nat × List α × HorridRing α), read r buf = some res →
      res.2.2.read < r.capacity ∧ res.2.2.write < r.capacity) ∧
    (∀ buf : List α, (write r buf).2.read < r.capacity ∧ (write r buf).2.write < r.capacity) := by
  refine ⟨fun c mem hc => ⟨hc, hc⟩, fun v => ⟨hr, Nat.mod_lt _ hcap⟩, ?_, ⟨hcap, hcap⟩,
    ⟨hcap, hcap⟩, ?_, fun buf => ?_⟩
  · have h2 := next_idx r hcap hr hw
    exact ⟨h2.1, h2.2.1⟩
  · intro buf res h
    cases hrl : read_loop (buf.length + 1) r buf 0 with
    | none =>
      have hnone : read r buf = none := by
        show (match read_loop (buf.length + 1) r buf 0 with
          | none => none
          | some (buf2, index, r2) => some (index, buf2, r2)) = none
        rw [hrl]
      rw [hnone] at h
      exact absurd h (by simp)
    | some res0 =>
      have hread := read_run r buf res0 hrl
      rw [hread] at h
      obtain rfl : (res0.2.1, res0.1, res0.2.2) = res := by simpa using h
      have h4 := read_loop_idx (buf.length + 1) r buf 0 res0 hcap hr hw hrl
      exact ⟨h4.1, h4.2.1⟩
  · have h3 := push_all_idx buf r hcap hr hw
    exact ⟨h3.1, h3.2.1⟩

/-- C9 witness: hypotheses and the `next`-preservation conjunct at a
concrete state. -/
theorem c9_index_bounds_w :
    0 < sampleFour.capacity ∧ sampleFour.read < sampleFour.capacity ∧
    sampleFour.write < sampleFour.capacity ∧
    ((next sampleFour).2.read < sampleFour.capacity ∧
      (next sampleFour).2.write < sampleFour.capacity) :=
  ⟨by decide, by decide, by decide,
    (c9_index_bounds sampleFour (by decide) (by decide) (by decide)).2.2.1⟩
